import Mathlib

/-!
Verification of the SparkFun HyperDisplay core (src/src/hyperdisplay.h).

The repository ships only the class header: every method body lives in a
translation unit that is not part of the sources.  Where a claim depends on
such a body, the definition below is modelled from the specification
(`spec.md`) and its doc comment says so; the header remains the authority
for everything it does determine (declared signatures, parameter types, and
the `HYPERDISPLAY_USE_PRINT` conditional compilation surface).

Colors: the C type `color_t` is `void *`, an opaque pointer into a packed
stream of pixel data.  We model a color value as a natural number (a byte
address) and the adapter-supplied `getOffsetColor` as pointer advancement by
`count` pixels of a fixed byte width.  Drawing functions are embedded as
pure functions returning the list of painted pixels, each pixel tagged with
the color-offset count that the code would pass to `getOffsetColor`.
-/

namespace HyperDisplay

/-- Modelled from the spec: `getOffsetColor` (hyperdisplay.h line 83) is a pure
virtual method, implemented only by adapters outside this repository.  The spec
(sections 3 and 4.1) describes it as returning "the color value `count`
pixel-equivalents after `base` in an underlying stream"; with `color_t` a
`void *` pointer this is pointer advancement by `count` pixels of
`bytesPerPixel` bytes each. -/
def getOffsetColor (bytesPerPixel : Nat) (base : Nat) (numPixels : Nat) : Nat :=
  base + bytesPerPixel * numPixels

/-- Modelled from the spec: `getNewColorOffset` (hyperdisplay.h line 69) has no
body in the sources.  The spec (section 4.2 together with the run-color-cycling
property of section 8) determines it: the color offset after writing
`numWritten` more pixels starting from offset `startColorOffset` in a cycle of
length `colorCycleLength` is the sum reduced modulo the cycle length. -/
def getNewColorOffset (colorCycleLength startColorOffset numWritten : Nat) : Nat :=
  (startColorOffset + numWritten) % colorCycleLength

/-- A painted pixel: a coordinate pair together with the color-offset count
passed to `getOffsetColor` for that pixel. -/
abbrev Px := (Nat × Nat) × Nat

/-- Modelled from the spec: the loop body of the default `xline` implementation
(hyperdisplay.h line 87, body not in the sources).  Spec section 4.2: it
"draws `len` pixels along the axis by repeated calls to `pixel`", replicating
the run across `width` parallel rows, updating the running color offset with
`getNewColorOffset` after each column. -/
def xlineAux (y0 colorCycleLength width : Nat) :
    Nat → Nat → Nat → List Px
  | _, 0, _ => []
  | x, len + 1, offset =>
      (List.range width).map (fun k => ((x, y0 + k), offset)) ++
        xlineAux y0 colorCycleLength width (x + 1) len
          (getNewColorOffset colorCycleLength offset 1)

/-- Modelled from the spec: default `xline` (hyperdisplay.h line 87).  Spec
section 4.2: the color for position `i` is
`advance(color, (startColorOffset + i) mod colorCycleLength)`, so the initial
running offset is the start offset reduced into the cycle. -/
def xline (x0 y0 len colorCycleLength startColorOffset width : Nat) : List Px :=
  xlineAux y0 colorCycleLength width x0 len
    (getNewColorOffset colorCycleLength startColorOffset 0)

/-- Modelled from the spec: default `yline` (hyperdisplay.h line 88), the
vertical counterpart of `xline`: `len` pixels downward, the run replicated
across `width` parallel columns, same color cycling. -/
def ylineAux (x0 colorCycleLength width : Nat) :
    Nat → Nat → Nat → List Px
  | _, 0, _ => []
  | y, len + 1, offset =>
      (List.range width).map (fun k => ((x0 + k, y), offset)) ++
        ylineAux x0 colorCycleLength width (y + 1) len
          (getNewColorOffset colorCycleLength offset 1)

/-- Modelled from the spec: `yline` entry point (hyperdisplay.h line 88). -/
def yline (x0 y0 len colorCycleLength startColorOffset width : Nat) : List Px :=
  ylineAux x0 colorCycleLength width y0 len
    (getNewColorOffset colorCycleLength startColorOffset 0)

/-- Closed form of the `xline` loop: starting from a reduced offset `o < L`,
column `i` of the run carries color offset `(o + i) % L`. -/
theorem xlineAux_eq (y0 L width : Nat) (len : Nat) :
    ∀ x o, o < L →
      xlineAux y0 L width x len o =
        (List.range len).flatMap
          (fun i => (List.range width).map (fun k => ((x + i, y0 + k), (o + i) % L))) := by
  induction len with
  | zero => intro x o _; simp [xlineAux]
  | succ n ih =>
      intro x o ho
      have hL : 0 < L := Nat.lt_of_le_of_lt (Nat.zero_le o) ho
      show (List.range width).map (fun k => ((x, y0 + k), o)) ++
            xlineAux y0 L width (x + 1) n (getNewColorOffset L o 1) = _
      rw [show getNewColorOffset L o 1 = (o + 1) % L from rfl,
        ih (x + 1) ((o + 1) % L) (Nat.mod_lt _ hL),
        List.range_succ_eq_map, List.flatMap_cons, List.flatMap_map]
      congr 1
      · simp [Nat.mod_eq_of_lt ho]
      · apply List.flatMap_congr
        intro i _
        have h1 : x + 1 + i = x + (i + 1) := by omega
        have h2 : (o + 1) % L + i = ((o + 1) % L + i) := rfl
        have h3 : ((o + 1) % L + i) % L = (o + (i + 1)) % L := by
          rw [Nat.mod_add_mod]; congr 1; omega
        rw [h1, h3]

/-- Closed form of `xline` itself: needs only `1 ≤ L`. -/
theorem xline_eq (x0 y0 len L s width : Nat) (hL : 1 ≤ L) :
    xline x0 y0 len L s width =
      (List.range len).flatMap
        (fun i => (List.range width).map (fun k => ((x0 + i, y0 + k), (s + i) % L))) := by
  rw [xline, show getNewColorOffset L s 0 = (s + 0) % L from rfl, Nat.add_zero,
    xlineAux_eq y0 L width len x0 (s % L) (Nat.mod_lt _ hL)]
  apply List.flatMap_congr
  intro i _
  have : (s % L + i) % L = (s + i) % L := Nat.mod_add_mod s L i ▸ rfl
  rw [this]

/-- C1: the adapter-supplied color-advance operation composes additively and is
the identity at zero: `advance(advance(c, n), m) = advance(c, n + m)` and
`advance(c, 0) = c`, for every byte width, base color value and counts. -/
theorem getOffsetColor_advance (bytesPerPixel c n m : Nat) :
    getOffsetColor bytesPerPixel (getOffsetColor bytesPerPixel c n) m =
      getOffsetColor bytesPerPixel c (n + m) ∧
    getOffsetColor bytesPerPixel c 0 = c := by
  constructor
  · unfold getOffsetColor; ring
  · unfold getOffsetColor; ring

/-- C3: with a positive color cycle length, the default `xline` paints column
`i` (every one of its `width` replicated rows) with the color offset
`(startColorOffset + i) % colorCycleLength`, and every painted pixel lying in
column `x0 + i` carries exactly that offset. -/
theorem xline_color_cycling (x0 y0 len L s width i : Nat)
    (hL : 1 ≤ L) (hi : i < len) :
    (∀ k, k < width → ((x0 + i, y0 + k), (s + i) % L) ∈ xline x0 y0 len L s width) ∧
    (∀ p ∈ xline x0 y0 len L s width, p.1.1 = x0 + i → p.2 = (s + i) % L) := by
  rw [xline_eq x0 y0 len L s width hL]
  constructor
  · intro k hk
    rw [List.mem_flatMap]
    exact ⟨i, List.mem_range.mpr hi, List.mem_map.mpr ⟨k, List.mem_range.mpr hk, rfl⟩⟩
  · intro p hp hcol
    rw [List.mem_flatMap] at hp
    obtain ⟨j, hj, hpj⟩ := hp
    rw [List.mem_map] at hpj
    obtain ⟨k, _, rfl⟩ := hpj
    simp only at hcol ⊢
    have hji : j = i := by omega
    rw [hji]

/-- Witness for C3 at concrete inputs: in `xline 2 3 5 3 4 2` the column `i = 2`,
row `k = 1` pixel is at `(4, 4)` with color offset `(4 + 2) % 3 = 0`. -/
theorem xline_color_cycling_witness :
    ((2 + 2, 3 + 1), (4 + 2) % 3) ∈ xline 2 3 5 3 4 2 :=
  (xline_color_cycling 2 3 5 3 4 2 2 (by decide) (by decide)).1 1 (by decide)

/-! ### Line rasterizer (claims C2, C7) -/

/-- A painted pixel with signed coordinates, as used by the Bresenham steppers
(the error-term arithmetic is signed in the source signatures, `int32_t`). -/
abbrev PxI := (Int × Int) × Nat

/-- Modelled from the spec: the loop of `lineLow` (hyperdisplay.h line 63, body
not in the sources).  Spec section 4.3: an incremental Bresenham stepper along
the dominant `x` axis, accumulating an error term `D` and stepping the minor
axis by `yi` when the error crosses the threshold; `width` parallel copies are
offset perpendicular to the dominant axis; the color offset cycles as in
`xline`. -/
def lineLowAux (yi dx dy : Int) (L width : Nat) :
    Nat → Int → Int → Int → Nat → List PxI
  | 0, _, _, _, _ => []
  | n + 1, x, y, D, off =>
      (List.range width).map (fun (k : Nat) => ((x, y + (k : Int)), off)) ++
        (if 0 < D then
          lineLowAux yi dx dy L width n (x + 1) (y + yi) (D + 2 * (dy - dx)) ((off + 1) % L)
        else
          lineLowAux yi dx dy L width n (x + 1) y (D + 2 * dy) ((off + 1) % L))

/-- Modelled from the spec: `lineLow` (hyperdisplay.h line 63), the shallow-slope
stepper, advancing in increasing `x` from `(x0, y0)` to `(x1, y1)` with
`x0 ≤ x1`. -/
def lineLow (x0 y0 x1 y1 : Nat) (L s width : Nat) : List PxI :=
  let dx : Int := (x1 : Int) - (x0 : Int)
  let dy0 : Int := (y1 : Int) - (y0 : Int)
  let yi : Int := if dy0 < 0 then -1 else 1
  let dy : Int := if dy0 < 0 then -dy0 else dy0
  lineLowAux yi dx dy L width (x1 - x0 + 1) (x0 : Int) (y0 : Int) (2 * dy - dx) (s % L)

/-- Modelled from the spec: the loop of `lineHigh` (hyperdisplay.h line 62),
the steep-slope stepper with the axis roles of `lineLowAux` exchanged. -/
def lineHighAux (xi dy dx : Int) (L width : Nat) :
    Nat → Int → Int → Int → Nat → List PxI
  | 0, _, _, _, _ => []
  | n + 1, x, y, D, off =>
      (List.range width).map (fun (k : Nat) => ((x + (k : Int), y), off)) ++
        (if 0 < D then
          lineHighAux xi dy dx L width n (x + xi) (y + 1) (D + 2 * (dx - dy)) ((off + 1) % L)
        else
          lineHighAux xi dy dx L width n x (y + 1) (D + 2 * dx) ((off + 1) % L))

/-- Modelled from the spec: `lineHigh` (hyperdisplay.h line 62), advancing in
increasing `y` from `(x0, y0)` to `(x1, y1)` with `y0 ≤ y1`. -/
def lineHigh (x0 y0 x1 y1 : Nat) (L s width : Nat) : List PxI :=
  let dy : Int := (y1 : Int) - (y0 : Int)
  let dx0 : Int := (x1 : Int) - (x0 : Int)
  let xi : Int := if dx0 < 0 then -1 else 1
  let dx : Int := if dx0 < 0 then -dx0 else dx0
  lineHighAux xi dy dx L width (y1 - y0 + 1) (x0 : Int) (y0 : Int) (2 * dx - dy) (s % L)

/-- Modelled from the spec: the public `line` (hyperdisplay.h line 93, body not
in the sources).  Spec section 4.3: classify the segment by the axis of greater
absolute delta, then direction-normalize so the stepper always advances in
increasing dominant-axis order, swapping the endpoints when needed; spec
section 7: a zero-length segment (equal endpoints) is a no-op.  The single
`color` argument is passed down with cycle length 1 and start offset 0. -/
def line (x0 y0 x1 y1 : Nat) (width : Nat) : List PxI :=
  if x0 = x1 ∧ y0 = y1 then []
  else if ((y1 : Int) - (y0 : Int)).natAbs < ((x1 : Int) - (x0 : Int)).natAbs then
    if x1 < x0 then lineLow x1 y1 x0 y0 1 0 width else lineLow x0 y0 x1 y1 1 0 width
  else
    if y1 < y0 then lineHigh x1 y1 x0 y0 1 0 width else lineHigh x0 y0 x1 y1 1 0 width

/-- C2: swapping the endpoints of `line` leaves the painted pixels unchanged
(the direction-normalizing dispatch makes both calls reach the same stepper
invocation), for every color and width. -/
theorem line_endpoint_symm (x0 y0 x1 y1 width : Nat) :
    line x0 y0 x1 y1 width = line x1 y1 x0 y0 width := by
  unfold line
  by_cases heq : x0 = x1 ∧ y0 = y1
  · obtain ⟨h1, h2⟩ := heq
    subst h1; subst h2
    simp
  · have heq2 : ¬(x1 = x0 ∧ y1 = y0) := fun ⟨a, b⟩ => heq ⟨a.symm, b.symm⟩
    rw [if_neg heq, if_neg heq2]
    have habs1 : ((y0 : Int) - (y1 : Int)).natAbs = ((y1 : Int) - (y0 : Int)).natAbs := by
      omega
    have habs2 : ((x0 : Int) - (x1 : Int)).natAbs = ((x1 : Int) - (x0 : Int)).natAbs := by
      omega
    rw [habs1, habs2]
    by_cases hcls : ((y1 : Int) - (y0 : Int)).natAbs < ((x1 : Int) - (x0 : Int)).natAbs
    · rw [if_pos hcls, if_pos hcls]
      have hne : x0 ≠ x1 := by
        intro h; subst h
        omega
      rcases Nat.lt_trichotomy x0 x1 with h | h | h
      · rw [if_neg (show ¬x1 < x0 by omega), if_pos h]
      · exact absurd h hne
      · rw [if_pos h, if_neg (show ¬x0 < x1 by omega)]
    · rw [if_neg hcls, if_neg hcls]
      have hne : y0 ≠ y1 := by
        intro h; subst h
        exact heq ⟨by omega, rfl⟩
      rcases Nat.lt_trichotomy y0 y1 with h | h | h
      · rw [if_neg (show ¬y1 < y0 by omega), if_pos h]
      · exact absurd h hne
      · rw [if_pos h, if_neg (show ¬y0 < y1 by omega)]

/-- C7: zero-length runs and degenerate lines paint nothing: `xline` and
`yline` with `len = 0` produce no pixels, and `line` with coincident endpoints
produces no pixels.  The embedding renders every drawing operation as a pure
pixel-list function over the unchanged window state, so no display or window
state is touched. -/
theorem zero_length_noop (x0 y0 L s width : Nat) :
    xline x0 y0 0 L s width = [] ∧
    yline x0 y0 0 L s width = [] ∧
    line x0 y0 x0 y0 width = [] := by
  refine ⟨rfl, rfl, ?_⟩
  unfold line
  simp

/-! ### Circle rasterizer (claims C4, C10) -/

/-- Horizontal run of `len` pixels starting at `(xL, y)`, used by the filled
circle to join symmetric points of a scanline. -/
def hrun (xL : Int) (len : Nat) (y : Int) : List (Int × Int) :=
  (List.range len).map (fun (i : Nat) => (xL + (i : Int), y))

theorem mem_hrun (xL : Int) (len : Nat) (y a b : Int) :
    (a, b) ∈ hrun xL len y ↔ b = y ∧ xL ≤ a ∧ a < xL + (len : Int) := by
  constructor
  · intro h
    rw [hrun, List.mem_map] at h
    obtain ⟨i, hi, he⟩ := h
    rw [List.mem_range] at hi
    have h1 : xL + (i : Int) = a := congrArg Prod.fst he
    have h2 : y = b := congrArg Prod.snd he
    refine ⟨h2.symm, by omega, by omega⟩
  · rintro ⟨h1, h2, h3⟩
    subst h1
    rw [hrun, List.mem_map]
    refine ⟨(a - xL).toNat, ?_, ?_⟩
    · rw [List.mem_range]
      omega
    · have hx : xL + (((a - xL).toNat : Nat) : Int) = a := by omega
      rw [hx]

/-- Modelled from the spec: `circle_eight` (hyperdisplay.h line 66, body not in
the sources), outline case.  Spec section 4.3: the seven remaining octants are
produced from one computed offset pair `(dx, dy)` by coordinate reflection
(swap and negate the x, y offsets) around the center. -/
def circleEightPoints (xc yc dx dy : Int) : List (Int × Int) :=
  [(xc + dx, yc + dy), (xc - dx, yc + dy), (xc + dx, yc - dy), (xc - dx, yc - dy),
   (xc + dy, yc + dx), (xc - dy, yc + dx), (xc + dy, yc - dx), (xc - dy, yc - dx)]

/-- Modelled from the spec: `circle_eight` with `fill` set.  Spec section 4.3:
"for each computed pair of symmetric points at the same y-offset, a horizontal
run is drawn connecting them instead of two isolated pixels". -/
def circleEightFilled (xc yc dx dy : Int) : List (Int × Int) :=
  hrun (xc - dx) (2 * dx.toNat + 1) (yc + dy) ++
    hrun (xc - dx) (2 * dx.toNat + 1) (yc - dy) ++
    hrun (xc - dy) (2 * dy.toNat + 1) (yc + dx) ++
    hrun (xc - dy) (2 * dy.toNat + 1) (yc - dx)

/-- Modelled from the spec: the midpoint-circle stepping loop of
`circle_midpoint` (hyperdisplay.h line 65, body not in the sources).  Spec
section 4.3: midpoint stepping computes one octant of offset pairs, from
`(radius, 0)` while the octant condition `dy ≤ dx` holds, with the classic
decision parameter update.  The first argument is fuel bounding the loop. -/
def midpointAux : Nat → Int → Int → Int → List (Int × Int)
  | 0, _, _, _ => []
  | fuel + 1, x, y, p =>
      if x < y then []
      else
        (x, y) ::
          (if p ≤ 0 then midpointAux fuel x (y + 1) (p + 2 * (y + 1) + 1)
          else midpointAux fuel (x - 1) (y + 1) (p + 2 * (y + 1) - 2 * (x - 1) + 1))

/-- Offset pairs of the computed octant for a given radius. -/
def octantPoints (r : Nat) : List (Int × Int) :=
  midpointAux (r + 2) (r : Int) 0 (1 - (r : Int))

/-- Every offset pair emitted by the midpoint loop has nonnegative components
(the minor offset starts at 0 and only grows, and pairs are emitted only while
the major offset dominates). -/
theorem midpointAux_nonneg :
    ∀ (fuel : Nat) (x y p : Int), 0 ≤ y →
      ∀ d ∈ midpointAux fuel x y p, 0 ≤ d.1 ∧ 0 ≤ d.2
  | 0, _, _, _, _, _, hd => by simp [midpointAux] at hd
  | fuel + 1, x, y, p, hy, d, hd => by
      rw [midpointAux] at hd
      by_cases hxy : x < y
      · rw [if_pos hxy] at hd
        simp at hd
      · rw [if_neg hxy] at hd
        rcases List.mem_cons.mp hd with rfl | hd2
        · constructor <;> omega
        · by_cases hp : p ≤ 0
          · rw [if_pos hp] at hd2
            exact midpointAux_nonneg fuel x (y + 1) _ (by omega) d hd2
          · rw [if_neg hp] at hd2
            exact midpointAux_nonneg fuel (x - 1) (y + 1) _ (by omega) d hd2

theorem octantPoints_nonneg (r : Nat) :
    ∀ d ∈ octantPoints r, 0 ≤ d.1 ∧ 0 ≤ d.2 :=
  midpointAux_nonneg (r + 2) (r : Int) 0 (1 - (r : Int)) le_rfl

/-- Modelled from the spec: the pixel set of `circle` (hyperdisplay.h line 95,
body not in the sources) on the midpoint path: every octant offset pair is
expanded by `circle_eight`, as isolated reflected points when unfilled and as
joining horizontal runs when filled. -/
def circlePixels (x0 y0 : Int) (r : Nat) (fill : Bool) : List (Int × Int) :=
  (octantPoints r).flatMap (fun d =>
    if fill then circleEightFilled x0 y0 d.1 d.2 else circleEightPoints x0 y0 d.1 d.2)

/-- The eight-fold expansion of one octant pair is closed under reflecting the
x coordinate across the center (offsets are nonnegative in the filled case). -/
theorem circleEight_reflectX_mem (xc yc dx dy : Int) (hdx : 0 ≤ dx) (hdy : 0 ≤ dy)
    (fill : Bool) (a b : Int)
    (h : (a, b) ∈ (if fill then circleEightFilled xc yc dx dy
                   else circleEightPoints xc yc dx dy)) :
    (2 * xc - a, b) ∈ (if fill then circleEightFilled xc yc dx dy
                       else circleEightPoints xc yc dx dy) := by
  cases fill
  · revert h
    show (a, b) ∈ circleEightPoints xc yc dx dy →
        (2 * xc - a, b) ∈ circleEightPoints xc yc dx dy
    simp only [circleEightPoints, List.mem_cons, List.not_mem_nil, or_false,
      Prod.mk.injEq]
    rintro (⟨rfl, rfl⟩ | ⟨rfl, rfl⟩ | ⟨rfl, rfl⟩ | ⟨rfl, rfl⟩ |
      ⟨rfl, rfl⟩ | ⟨rfl, rfl⟩ | ⟨rfl, rfl⟩ | ⟨rfl, rfl⟩)
    · exact Or.inr (Or.inl ⟨by ring, rfl⟩)
    · exact Or.inl ⟨by ring, rfl⟩
    · exact Or.inr (Or.inr (Or.inr (Or.inl ⟨by ring, rfl⟩)))
    · exact Or.inr (Or.inr (Or.inl ⟨by ring, rfl⟩))
    · exact Or.inr (Or.inr (Or.inr (Or.inr (Or.inr (Or.inl ⟨by ring, rfl⟩)))))
    · exact Or.inr (Or.inr (Or.inr (Or.inr (Or.inl ⟨by ring, rfl⟩))))
    · exact Or.inr (Or.inr (Or.inr (Or.inr (Or.inr (Or.inr (Or.inr ⟨by ring, rfl⟩))))))
    · exact Or.inr (Or.inr (Or.inr (Or.inr (Or.inr (Or.inr (Or.inl ⟨by ring, rfl⟩))))))
  · revert h
    show (a, b) ∈ circleEightFilled xc yc dx dy →
        (2 * xc - a, b) ∈ circleEightFilled xc yc dx dy
    simp only [circleEightFilled, List.mem_append, mem_hrun]
    rintro (((h | h) | h) | h)
    · exact Or.inl (Or.inl (Or.inl ⟨h.1, by omega, by omega⟩))
    · exact Or.inl (Or.inl (Or.inr ⟨h.1, by omega, by omega⟩))
    · exact Or.inl (Or.inr ⟨h.1, by omega, by omega⟩)
    · exact Or.inr ⟨h.1, by omega, by omega⟩

/-- The eight-fold expansion of one octant pair is closed under reflecting the
y coordinate across the center. -/
theorem circleEight_reflectY_mem (xc yc dx dy : Int) (_hdx : 0 ≤ dx) (_hdy : 0 ≤ dy)
    (fill : Bool) (a b : Int)
    (h : (a, b) ∈ (if fill then circleEightFilled xc yc dx dy
                   else circleEightPoints xc yc dx dy)) :
    (a, 2 * yc - b) ∈ (if fill then circleEightFilled xc yc dx dy
                       else circleEightPoints xc yc dx dy) := by
  cases fill
  · revert h
    show (a, b) ∈ circleEightPoints xc yc dx dy →
        (a, 2 * yc - b) ∈ circleEightPoints xc yc dx dy
    simp only [circleEightPoints, List.mem_cons, List.not_mem_nil, or_false,
      Prod.mk.injEq]
    rintro (⟨rfl, rfl⟩ | ⟨rfl, rfl⟩ | ⟨rfl, rfl⟩ | ⟨rfl, rfl⟩ |
      ⟨rfl, rfl⟩ | ⟨rfl, rfl⟩ | ⟨rfl, rfl⟩ | ⟨rfl, rfl⟩)
    · exact Or.inr (Or.inr (Or.inl ⟨rfl, by ring⟩))
    · exact Or.inr (Or.inr (Or.inr (Or.inl ⟨rfl, by ring⟩)))
    · exact Or.inl ⟨rfl, by ring⟩
    · exact Or.inr (Or.inl ⟨rfl, by ring⟩)
    · exact Or.inr (Or.inr (Or.inr (Or.inr (Or.inr (Or.inr (Or.inl ⟨rfl, by ring⟩))))))
    · exact Or.inr (Or.inr (Or.inr (Or.inr (Or.inr (Or.inr (Or.inr ⟨rfl, by ring⟩))))))
    · exact Or.inr (Or.inr (Or.inr (Or.inr (Or.inl ⟨rfl, by ring⟩))))
    · exact Or.inr (Or.inr (Or.inr (Or.inr (Or.inr (Or.inl ⟨rfl, by ring⟩)))))
  · revert h
    show (a, b) ∈ circleEightFilled xc yc dx dy →
        (a, 2 * yc - b) ∈ circleEightFilled xc yc dx dy
    simp only [circleEightFilled, List.mem_append, mem_hrun]
    rintro (((h | h) | h) | h)
    · exact Or.inl (Or.inl (Or.inr ⟨by omega, h.2.1, h.2.2⟩))
    · exact Or.inl (Or.inl (Or.inl ⟨by omega, h.2.1, h.2.2⟩))
    · exact Or.inr ⟨by omega, h.2.1, h.2.2⟩
    · exact Or.inl (Or.inr ⟨by omega, h.2.1, h.2.2⟩)

/-- C4: the pixel set of `circle`, filled or not, is invariant under reflection
across the vertical axis through the center (`x ↦ 2·cx − x`) and under
reflection across the horizontal axis through the center (`y ↦ 2·cy − y`),
for every center, radius and color. -/
theorem circle_reflection_symmetry (x0 y0 : Int) (r : Nat) (fill : Bool)
    (a b : Int) :
    ((a, b) ∈ circlePixels x0 y0 r fill ↔
      (2 * x0 - a, b) ∈ circlePixels x0 y0 r fill) ∧
    ((a, b) ∈ circlePixels x0 y0 r fill ↔
      (a, 2 * y0 - b) ∈ circlePixels x0 y0 r fill) := by
  have hoct := octantPoints_nonneg r
  have hX : ∀ u v : Int, (u, v) ∈ circlePixels x0 y0 r fill →
      (2 * x0 - u, v) ∈ circlePixels x0 y0 r fill := by
    intro u v h
    rw [circlePixels, List.mem_flatMap] at h ⊢
    obtain ⟨d, hd, hm⟩ := h
    exact ⟨d, hd, circleEight_reflectX_mem x0 y0 d.1 d.2 (hoct d hd).1 (hoct d hd).2
      fill u v hm⟩
  have hY : ∀ u v : Int, (u, v) ∈ circlePixels x0 y0 r fill →
      (u, 2 * y0 - v) ∈ circlePixels x0 y0 r fill := by
    intro u v h
    rw [circlePixels, List.mem_flatMap] at h ⊢
    obtain ⟨d, hd, hm⟩ := h
    exact ⟨d, hd, circleEight_reflectY_mem x0 y0 d.1 d.2 (hoct d hd).1 (hoct d hd).2
      fill u v hm⟩
  refine ⟨⟨hX a b, ?_⟩, ⟨hY a b, ?_⟩⟩
  · intro h
    have h2 := hX (2 * x0 - a) b h
    have h3 : 2 * x0 - (2 * x0 - a) = a := by ring
    rwa [h3] at h2
  · intro h
    have h2 := hY a (2 * y0 - b) h
    have h3 : 2 * y0 - (2 * y0 - b) = b := by ring
    rwa [h3] at h2

/-! ### Narrowing on the midpoint delegation path (claim C10) -/

/-- The C implicit conversion from `uint16_t` to `uint8_t`: reduction modulo
256, as performed on every argument of a call from `circle` (16-bit parameters,
hyperdisplay.h line 95) to `circle_midpoint` (8-bit parameters, line 65). -/
def toUint8 (n : Nat) : Nat := n % 256

/-- Modelled from the spec: `circle_midpoint` (hyperdisplay.h line 65, body not
in the sources) draws the midpoint circle from its 8-bit center and radius. -/
def circle_midpoint (x0 y0 radius : Nat) (fill : Bool) : List (Int × Int) :=
  circlePixels (x0 : Int) (y0 : Int) radius fill

/-- Modelled from the spec: the delegation of the public `circle` to
`circle_midpoint` (the call body is not in the sources; the parameter types in
the header force the conversion).  Each 16-bit argument is narrowed to 8 bits
at the call boundary, before any pixel is computed. -/
def circleViaMidpoint (x0 y0 radius : Nat) (fill : Bool) : List (Int × Int) :=
  circle_midpoint (toUint8 x0) (toUint8 y0) (toUint8 radius) fill

/-- C10: on the midpoint path the center and radius reach the helper reduced
modulo 256, so the drawn pixels depend only on the arguments mod 256: adding
256 to any argument leaves the pixel set unchanged, and the value the helper
receives never exceeds 255. -/
theorem circle_midpoint_narrowing (x0 y0 radius : Nat) (fill : Bool) :
    circleViaMidpoint x0 y0 radius fill =
      circle_midpoint (x0 % 256) (y0 % 256) (radius % 256) fill ∧
    circleViaMidpoint (x0 + 256) (y0 + 256) (radius + 256) fill =
      circleViaMidpoint x0 y0 radius fill ∧
    toUint8 x0 ≤ 255 ∧ toUint8 y0 ≤ 255 ∧ toUint8 radius ≤ 255 := by
  refine ⟨rfl, ?_, ?_, ?_, ?_⟩
  · unfold circleViaMidpoint toUint8
    rw [Nat.add_mod_right, Nat.add_mod_right, Nat.add_mod_right]
  · unfold toUint8; omega
  · unfold toUint8; omega
  · unfold toUint8; omega

/-! ### Window and text placement (claims C5, C8) -/

/-- The window state of `wind_info_t` (hyperdisplay.h lines 44-55): the
rectangle bounds and reset position are `uint16_t`, the cursor is `int32_t`.
The two pointer fields (`pLastCharacter`, `data`) are adapter-owned and play no
role in the claims. -/
structure WindInfo where
  xMin : Nat
  xMax : Nat
  yMin : Nat
  yMax : Nat
  cursorX : Int
  cursorY : Int
  xReset : Nat
  yReset : Nat
  deriving Repr, DecidableEq

/-- Modelled from the spec: the cursor-advance step of `write`
(hyperdisplay.h line 100, body not in the sources).  Spec section 4.4 steps
3-4: advance `cursorX` by the glyph width; if the advanced cursor would exceed
`xMax`, reset `cursorX` to `xReset`, increment `cursorY` by the glyph height
and report `causedNewline = true`, otherwise keep the advanced cursor and
report `false`. -/
def placeCharacter (w : WindInfo) (xDim yDim : Nat) : WindInfo × Bool :=
  let cx := w.cursorX + (xDim : Int)
  if (w.xMax : Int) < cx then
    ({ w with cursorX := (w.xReset : Int), cursorY := w.cursorY + (yDim : Int) }, true)
  else
    ({ w with cursorX := cx }, false)

/-- C5: in a window with `xMin = 0`, `xMax = 9`, `xReset = 0`, `yReset = 0` and
the cursor at `(0, 0)`, placing three characters of glyph width 4 moves the
cursor to `(4, 0)`, then `(8, 0)`, then wraps to `(0, yDim)`, with
`causedNewline` true only on the third placement. -/
theorem write_cursor_wrap (yMin yMax yDim : Nat) :
    placeCharacter ⟨0, 9, yMin, yMax, 0, 0, 0, 0⟩ 4 yDim =
      (⟨0, 9, yMin, yMax, 4, 0, 0, 0⟩, false) ∧
    placeCharacter ⟨0, 9, yMin, yMax, 4, 0, 0, 0⟩ 4 yDim =
      (⟨0, 9, yMin, yMax, 8, 0, 0, 0⟩, false) ∧
    placeCharacter ⟨0, 9, yMin, yMax, 8, 0, 0, 0⟩ 4 yDim =
      (⟨0, 9, yMin, yMax, 0, (yDim : Int), 0, 0⟩, true) := by
  refine ⟨?_, ?_, ?_⟩ <;> simp [placeCharacter]

/-- Modelled from the spec: the default `rectangle` (hyperdisplay.h line 89,
body not in the sources).  Spec section 4.2: unfilled, the four border runs;
filled, a full interior sweep by repeated `xline`, one run per row.  The single
color argument is passed with cycle length 1 and start offset 0. -/
def rectangle (x0 y0 x1 y1 : Nat) (width : Nat) (filled : Bool) : List Px :=
  if filled then
    (List.range (y1 + 1 - y0)).flatMap
      (fun (j : Nat) => xline x0 (y0 + j) (x1 + 1 - x0) 1 0 1)
  else
    xline x0 y0 (x1 + 1 - x0) 1 0 width ++ xline x0 y1 (x1 + 1 - x0) 1 0 width ++
      yline x0 y0 (y1 + 1 - y0) 1 0 width ++ yline x1 y0 (y1 + 1 - y0) 1 0 width

/-- Modelled from the spec: `fillWindow` (hyperdisplay.h line 96, body not in
the sources).  Spec section 4.3 specifies it paints the whole active window;
it is embedded directly as the row-major sweep over every window-relative
coordinate, so that its agreement with `rectangle` below is a genuine
comparison of two definitions. -/
def fillWindow (w : WindInfo) : List Px :=
  (List.range (w.yMax + 1 - w.yMin)).flatMap
    (fun (j : Nat) =>
      (List.range (w.xMax + 1 - w.xMin)).map (fun (i : Nat) => ((i, j), 0)))

theorem flatMap_singleton_map {α β : Type} (l : List α) (f : α → β) :
    (l.flatMap fun x => [f x]) = l.map f := by
  induction l with
  | nil => rfl
  | cons a t ih => simp [ih]

/-- An `xline` with cycle length 1 and width 1 is a plain row of pixels at
color offset 0. -/
theorem xline_single (x0 y len : Nat) :
    xline x0 y len 1 0 1 =
      (List.range len).map (fun (i : Nat) => ((x0 + i, y), 0)) := by
  rw [xline_eq x0 y len 1 0 1 le_rfl]
  have hr : List.range 1 = [0] := rfl
  rw [hr]
  simp only [List.map_cons, List.map_nil, Nat.add_zero, Nat.mod_one]
  exact flatMap_singleton_map _ _

/-- C8: `fillWindow` paints exactly the pixels of a filled `rectangle` call
spanning the entire active window (window-relative corners `(0, 0)` to
`(xMax - xMin, yMax - yMin)`), given the window invariant `min ≤ max` on both
axes. -/
theorem fillWindow_is_filled_rectangle (w : WindInfo)
    (hx : w.xMin ≤ w.xMax) (hy : w.yMin ≤ w.yMax) :
    fillWindow w = rectangle 0 0 (w.xMax - w.xMin) (w.yMax - w.yMin) 1 true := by
  have h1 : w.yMax - w.yMin + 1 - 0 = w.yMax + 1 - w.yMin := by omega
  have h2 : w.xMax - w.xMin + 1 - 0 = w.xMax + 1 - w.xMin := by omega
  rw [fillWindow, rectangle, if_pos rfl, h1]
  apply List.flatMap_congr
  intro j _
  rw [xline_single, h2]
  simp

/-- Witness for C8 at a concrete window: the 3-by-2 window `[0,2] × [0,1]`. -/
theorem fillWindow_is_filled_rectangle_witness :
    fillWindow ⟨0, 2, 0, 1, 0, 0, 0, 0⟩ = rectangle 0 0 2 1 1 true :=
  fillWindow_is_filled_rectangle ⟨0, 2, 0, 1, 0, 0, 0, 0⟩ (by decide) (by decide)

/-! ### Polygon (claim C6) -/

/-- Modelled from the spec: the edge structure of `polygon` (hyperdisplay.h
line 94, body not in the sources).  Spec section 4.3: `polygon` connects vertex
`i` to vertex `(i+1) mod numSides` with `line(...)`; this list records, in
order, the endpoint pairs handed to `line`.  Out-of-range vertex reads fall
back to 0, standing for the caller contract on array lengths. -/
def polygonSegments (x y : List Nat) (numSides : Nat) :
    List ((Nat × Nat) × (Nat × Nat)) :=
  (List.range numSides).map (fun (i : Nat) =>
    ((x.getD i 0, y.getD i 0),
     (x.getD ((i + 1) % numSides) 0, y.getD ((i + 1) % numSides) 0)))

/-- C6: for `numSides ≥ 2`, `polygon` draws exactly `numSides` segments, the
`i`-th connecting vertex `i` to vertex `(i+1) mod numSides`, and the last
segment closes the shape back to vertex 0. -/
theorem polygon_closes (x y : List Nat) (n : Nat) (h : 2 ≤ n) :
    (polygonSegments x y n).length = n ∧
    (∀ i, i < n → (polygonSegments x y n)[i]? =
      some ((x.getD i 0, y.getD i 0),
        (x.getD ((i + 1) % n) 0, y.getD ((i + 1) % n) 0))) ∧
    (polygonSegments x y n)[n - 1]? =
      some ((x.getD (n - 1) 0, y.getD (n - 1) 0), (x.getD 0 0, y.getD 0 0)) := by
  refine ⟨by simp [polygonSegments], ?_, ?_⟩
  · intro i hi
    simp [polygonSegments, hi]
  · have h1 : n - 1 < n := by omega
    have h2 : n - 1 + 1 = n := by omega
    simp [polygonSegments, h1, h2, Nat.mod_self]

/-- Witness for C6 on the spec scenario square `(0,0), (4,0), (4,4), (0,4)`:
four segments, the last running from `(0, 4)` back to `(0, 0)`. -/
theorem polygon_closes_witness :
    (polygonSegments [0, 4, 4, 0] [0, 0, 4, 4] 4).length = 4 ∧
    (polygonSegments [0, 4, 4, 0] [0, 0, 4, 4] 4)[3]? = some ((0, 4), (0, 0)) := by
  have h := polygon_closes [0, 4, 4, 0] [0, 0, 4, 4] 4 (by decide)
  exact ⟨h.1, by simpa using h.2.2⟩

/-! ### Compile-time toggles (claim C9) -/

/-- From the header, lines 99-104: whether a `write` method is declared, as a
function of the `HYPERDISPLAY_USE_PRINT` toggle.  Both branches of the
conditional declare `virtual size_t write(uint8_t val)`. -/
def writeDeclared (usePrint : Bool) : Bool :=
  if usePrint then true else true

/-- From the header, lines 99-104: whether the pure virtual
`getCharInfo` method is declared.  Only the `HYPERDISPLAY_USE_PRINT` branch
declares it; the `#else` branch does not. -/
def getCharInfoDeclared (usePrint : Bool) : Bool :=
  if usePrint then true else false

/-- Counterexample to C9 as stated: with the toggle disabled the claim predicts
no `write` operation, but the header's `#else` branch still declares `write`. -/
theorem write_toggle_counterexample :
    writeDeclared false = true ∧ ¬(writeDeclared false = false) := by
  constructor
  · rfl
  · intro h
    exact absurd h (by decide)

/-- C9 (amended): the toggle selects only which declarations exist, and it is
`getCharInfo` (the text-engine character lookup) that exists exactly when the
toggle is enabled; `write` is declared in both branches and therefore exists
regardless of the toggle. -/
theorem toggle_declaration_surface (usePrint : Bool) :
    writeDeclared usePrint = true ∧ getCharInfoDeclared usePrint = usePrint := by
  cases usePrint <;> exact ⟨rfl, rfl⟩

end HyperDisplay
